import Mathlib

/-!
Verification of the repository cache lifecycle manager of `spoon`
(src/src/index.ts), against its design specification.

The TypeScript source is shallowly embedded: pure logic becomes Lean
functions; filesystem and subprocess effects become explicit inputs
(environment records) and outputs (operation traces and lists of written
records).  ISO-8601 timestamp strings are modelled by their JavaScript
parse result `new Date(s).getTime()`: `some t` for a string denoting the
instant `t` (milliseconds), `none` for a string that does not parse to a
finite number (`NaN`).
-/

namespace Spoon

/-- A timestamp string as the source stores it, modelled by its
`new Date(s).getTime()` parse: `some t` when finite, `none` for `NaN`. -/
abbrev Timestamp := Option Int

/-- Model of `RepoMeta` (src/src/index.ts:68): the per-repository metadata record. -/
structure RepoMeta where
  repoUrl : String
  repoFullName : String
  branch : String
  clonedAt : Timestamp
  lastAccess : Timestamp
deriving DecidableEq, Repr

/-- Model of `RepoEntry` (src/src/index.ts:76): a cached repository found by
`collectRepos` — its directory path (as path components) and its metadata. -/
structure RepoEntry where
  path : List String
  meta : RepoMeta
deriving DecidableEq, Repr

/-- Model of `shouldPurge` (src/src/index.ts:670): an entry is purged when its
`lastAccess` parses to a finite time (`Number.isFinite`) and
`Date.now() - lastAccess > ttlMs`, strictly.  `Date.now()` is the explicit
`now` argument here. -/
def shouldPurge (now : Int) (repo : RepoEntry) (ttlMs : Int) : Bool :=
  match repo.meta.lastAccess with
  | some lastAccess => decide (now - lastAccess > ttlMs)
  | none => false

/-- Model of `purgeRepos` (src/src/index.ts:675): filters the expired entries
(`shouldPurge`), removes each of their directories, and returns the count.
The value returned here is the list of removed (expired) entries; the
source's return value is its length and its filesystem effect is
`removeDir` on each element. -/
def purgeRepos (now : Int) (entries : List RepoEntry) (ttlMs : Int) : List RepoEntry :=
  entries.filter (fun entry => shouldPurge now entry ttlMs)

/-! ### Directory removal (`removeDir`) -/

/-- A filesystem path, as components below the filesystem root. -/
abbrev FPath := List String

/-- A filesystem is the list of existing nodes (directories and files),
each identified by its path. -/
abbrev Fs := List FPath

/-- Model of `rmSync(p, { recursive: true, force: true })`: removes the node `p`
and everything below it. -/
def rmRec (fs : Fs) (p : FPath) : Fs :=
  fs.filter (fun q => ¬ p.isPrefixOf q)

/-- Model of `readdirSync(p)`: the immediate children of directory `p`. -/
def childrenOf (fs : Fs) (p : FPath) : List FPath :=
  fs.filter (fun q => q.length = p.length + 1 ∧ p.isPrefixOf q)

/-- The second half of `removeDir` (src/src/index.ts:661): if the parent
directory exists and `readdirSync` shows it empty, remove it too. -/
def removeParentIfEmpty (fs1 : Fs) (parent : FPath) : Fs :=
  if fs1.contains parent then
    if childrenOf fs1 parent = [] then rmRec fs1 parent else fs1
  else fs1

/-- Model of `removeDir` (src/src/index.ts:657): removes `path` recursively if it
exists, then resolves `path/..` and, if that parent exists and
`readdirSync` shows it empty, removes the parent as well.  No further
ancestor is touched. -/
def removeDir (fs : Fs) (p : FPath) : Fs :=
  removeParentIfEmpty (if fs.contains p then rmRec fs p else fs) p.dropLast

/-! ### History log (`appendHistory` / `syncHistory`) -/

/-- Model of `HistoryEntry` (src/src/index.ts:532): one line of the append-only
history log. -/
structure HistoryEntry where
  repoFullName : String
  timestamp : Timestamp
deriving DecidableEq, Repr

/-- Model of `appendHistory` (src/src/index.ts:554): appends one entry, stamped
with the current time, to the history log. -/
def appendHistory (history : List HistoryEntry) (repoFullName : String)
    (now : Int) : List HistoryEntry :=
  history ++ [⟨repoFullName, some now⟩]

/-- The body of the `syncHistory` loop (src/src/index.ts:570): one
locally cached repository is appended to the log unless its full name is
in `logged`, the set of already-logged names computed once at loop
entry. -/
def syncStep (logged : List String) (now : Int)
    (h : List HistoryEntry) (entry : RepoEntry) : List HistoryEntry :=
  if logged.contains entry.meta.repoFullName then h
  else appendHistory h entry.meta.repoFullName now

/-- Model of `syncHistory` (src/src/index.ts:563): does nothing when the cache is
empty; otherwise computes the set of already-logged full names once, then
appends a history entry for every locally cached repository whose full
name is not in that set. -/
def syncHistory (entries : List RepoEntry) (history : List HistoryEntry)
    (now : Int) : List HistoryEntry :=
  if entries = [] then history
  else entries.foldl (syncStep (history.map (·.repoFullName)) now) history

/-! ### Reference resolution (`parseRepoSlug` / `resolveRepo`) -/

/-- The `{owner, repo, url}` triple produced by reference resolution. -/
structure RepoRef where
  owner : String
  repo : String
  url : String
deriving DecidableEq, Repr

/-- Model of `isUrl` (src/src/index.ts:277) on the character list of the input:
`startsWith` one of the three URL prefixes. -/
def isUrlL (l : List Char) : Bool :=
  "http://".toList.isPrefixOf l || "https://".toList.isPrefixOf l ||
    "git@".toList.isPrefixOf l

/-- The ECMAScript `LineTerminator` set (LF, CR, line separator,
paragraph separator): the characters the regex `.` never matches. -/
def isLineTerminator (c : Char) : Bool :=
  c = '\n' || c = '\r' || c = '\u2028' || c = '\u2029'

/-- The ECMAScript regex class `\s` (WhiteSpace and LineTerminator): tab,
LF, VT, FF, CR, space, NBSP, the Ogham space mark, the en-quad through
hair-space range, line and paragraph separators, narrow NBSP, medium
mathematical space, ideographic space, and the BOM. -/
def jsWhitespace (c : Char) : Bool :=
  c = '\t' || c = '\n' || c = '\x0B' || c = '\x0C' || c = '\r' || c = ' '
    || c = '\u00A0' || c = '\u1680'
    || (decide ('\u2000' ≤ c) && decide (c ≤ '\u200A'))
    || c = '\u2028' || c = '\u2029' || c = '\u202F' || c = '\u205F'
    || c = '\u3000' || c = '\uFEFF'

/-- Whether the lazy tail `(.+?)(?:\.git)?$` of the URL regex
(src/src/index.ts:283) can match the text after the owner slash at all:
the group needs at least one character, and since `.` never matches a
line terminator, every character the group absorbs must be an ordinary
one; the optional literal `\.git` and the end anchor force the group to
cover everything up to an optional final `".git"` (whose own characters
are matched literally), so a match exists iff the text is nonempty and
free of line terminators. -/
def group2Viable (r : List Char) : Bool :=
  decide (r ≠ []) && !(r.any isLineTerminator)

/-- The value of the lazy tail `(.+?)(?:\.git)?$` when it matches
(`group2Viable`): the shortest nonempty group, leaving a final `".git"`
to the optional literal when the text is long enough; otherwise the group
swallows the whole text. -/
def group2 (r : List Char) : List Char :=
  if 5 ≤ r.length ∧ ".git".toList.isSuffixOf r then r.take (r.length - 4) else r

/-- The `.replace(/\.git$/, "")` applied to the matched repo group
(src/src/index.ts:287). -/
def stripGit (r : List Char) : List Char :=
  if ".git".toList.isSuffixOf r then r.take (r.length - 4) else r

/-- The lazy group `(.+?)\/` of the URL regex: scanning left to right,
the owner group ends at the first `/` that leaves a nonempty owner before
it and a remainder on which the tail of the pattern can match
(`group2Viable`); a `/` at which the remainder cannot match is absorbed
into the owner (regex backtracking).  A line terminator cannot be
absorbed by `.`, so reaching one fails the match at this start
position. -/
def findOwner (acc : List Char) : List Char → Option (List Char × List Char)
  | [] => none
  | c :: rest =>
    if c = '/' then
      if acc ≠ [] ∧ group2Viable rest = true then some (acc.reverse, rest)
      else findOwner (c :: acc) rest
    else if isLineTerminator c = true then none
    else findOwner (c :: acc) rest

/-- The literal head `github\.com[:/]` of the URL regex: when the text
starts with `github.com` followed by `:` or `/`, returns the text after
the separator. -/
def githubAt (l : List Char) : Option (List Char) :=
  if "github.com:".toList.isPrefixOf l then some (l.drop 11)
  else if "github.com/".toList.isPrefixOf l then some (l.drop 11)
  else none

/-- The unanchored match of `/github\.com[:/](.+?)\/(.+?)(?:\.git)?$/`
(src/src/index.ts:283): try each start position left to right; at the
first position where the literal head and both groups match, return
(owner group, raw repo group before `\.git` stripping). -/
def scanUrl : List Char → Option (List Char × List Char)
  | [] => none
  | c :: rest =>
    match githubAt (c :: rest) with
    | some s =>
      match findOwner [] s with
      | some (o, r) => some (o, group2 r)
      | none => scanUrl rest
    | none => scanUrl rest

/-- No character of the text falls in the regex class `\s`
(`jsWhitespace`). -/
def noWs (l : List Char) : Bool :=
  l.all (fun c => ¬ jsWhitespace c = true)

/-- The `owner/repo` test and split `/^[^\/\s]+\/[^\/\s]+$/` plus
`input.split("/")` (src/src/index.ts:290): the text is a nonempty
slash-free whitespace-free segment, one `/`, and another such segment. -/
def slugParse (l : List Char) : Option (List Char × List Char) :=
  match l.dropWhile (· ≠ '/') with
  | '/' :: b =>
    if l.takeWhile (· ≠ '/') ≠ [] ∧ b ≠ [] ∧ ¬ b.contains '/'
        ∧ noWs (l.takeWhile (· ≠ '/')) ∧ noWs b then
      some (l.takeWhile (· ≠ '/'), b)
    else none
  | _ => none

/-- Model of `parseRepoSlug` (src/src/index.ts:281): URL inputs go through the
`github.com` regex with a final `\.git` strip; otherwise an exact
`owner/repo` shape is split directly and given a `https://github.com/`
URL; anything else is `null`. -/
def parseRepoSlug (input : String) : Option RepoRef :=
  if isUrlL input.toList then
    match scanUrl input.toList with
    | some (o, r) => some ⟨⟨o⟩, ⟨stripGit r⟩, input⟩
    | none => none
  else
    match slugParse input.toList with
    | some (a, b) => some ⟨⟨a⟩, ⟨b⟩, "https://github.com/" ++ input⟩
    | none => none

/-- External subprocesses the resolver can invoke. -/
inductive Call where
  | gh
  | fzf
deriving DecidableEq, Repr

/-- The environment of `resolveRepo`: the locally cached repository names
(`collectRepos`, in scan order), the history log names (in order), the
hosting-platform search results (`gh search repos`), and the interactive
chooser (`fzf`), which returns one of the offered lines or `none` when
canceled. -/
structure ResolveEnv where
  localRepos : List String
  historyNames : List String
  ghResults : List (String × String)
  fzfPick : List String → Option String

/-- Origin tag of a candidate in the local/history search. -/
inductive Source where
  | loc
  | hist
deriving DecidableEq, Repr

/-- Display text of a `Source`. -/
def Source.text : Source → String
  | .loc => "local"
  | .hist => "history"

/-- Insert keeping the first occurrence, as JavaScript `Set`/`Map`
insertion does. -/
def insertUniq (l : List String) (x : String) : List String :=
  if l.contains x then l else l ++ [x]

/-- First-occurrence deduplication, in order. -/
def dedup (l : List String) : List String :=
  l.foldl insertUniq []

/-- The `seen` map of `searchLocalAndHistory` (src/src/index.ts:347):
local full names first (tagged `local`), then history full names not
already local (tagged `history`), in first-insertion order. -/
def seenList (localRepos historyNames : List String) : List (String × Source) :=
  (dedup localRepos).map (fun n => (n, Source.loc)) ++
    ((dedup historyNames).filter (fun n => ¬ localRepos.contains n)).map
      (fun n => (n, Source.hist))

/-- Model of `fullName.split("/")[1]?.toLowerCase() ?? ""` (src/src/index.ts:367). -/
def repoNamePart (fullName : String) : String :=
  match fullName.splitOn "/" with
  | _ :: second :: _ => second.toLower
  | _ => ""

/-- JavaScript `String.prototype.includes`. -/
def strContains (s pat : String) : Bool :=
  decide (2 ≤ (s.splitOn pat).length) || pat = ""

/-- A resolved-or-failed result together with the subprocess calls made. -/
structure ResolveOut where
  result : Except String RepoRef
  calls : List Call
deriving Repr

/-- Model of `chosen.split("/")` destructuring into `{owner, repo, url}`
(src/src/index.ts:403). -/
def refOfChosen (chosen : String) : RepoRef :=
  { owner := (chosen.splitOn "/").headD ""
    repo := ((chosen.splitOn "/").drop 1).headD ""
    url := "https://github.com/" ++ chosen }

/-- Model of `searchLocalAndHistory` (src/src/index.ts:341): lowercase the query,
merge local and history names, partition into exact repo-name matches and
substring matches, prefer exact; a unique candidate is auto-selected,
several go to the chooser; `.ok none` models the `null` return (no
candidate), `.error` models a canceled selection. -/
def searchLocalAndHistory (env : ResolveEnv) (query : String) :
    Except String (Option RepoRef) × List Call :=
  let lowerQuery := query.toLower
  let seen := seenList env.localRepos env.historyNames
  let exactMatches := seen.filter (fun m => repoNamePart m.1 = lowerQuery)
  let substringMatches := seen.filter (fun m =>
    repoNamePart m.1 ≠ lowerQuery ∧
      (strContains (repoNamePart m.1) lowerQuery ||
        strContains m.1.toLower lowerQuery))
  let pickFrom := if exactMatches ≠ [] then exactMatches else substringMatches
  if pickFrom = [] then (.ok none, [])
  else if pickFrom.length = 1 then
    (.ok (some (refOfChosen (pickFrom.headD ("", Source.loc)).1)), [])
  else
    let lines := pickFrom.map (fun m => m.1 ++ "\t[" ++ m.2.text ++ "]")
    match env.fzfPick lines with
    | none => (.error "Selection canceled.", [.fzf])
    | some selection =>
      (.ok (some (refOfChosen ((selection.splitOn "\t").headD ""))), [.fzf])

/-- Model of `searchRepo` (src/src/index.ts:315): `gh search repos` (one
subprocess call), failing when it returns no results; then the chooser
over `fullName\turl` lines, failing when canceled; the chosen line is
split back into `{owner, repo, url}`. -/
def searchRepo (env : ResolveEnv) (query : String) :
    Except String RepoRef × List Call :=
  if env.ghResults = [] then
    (.error ("No repositories found for \x22" ++ query ++ "\x22."), [.gh])
  else
    let lines := env.ghResults.map (fun item => item.1 ++ "\t" ++ item.2)
    match env.fzfPick lines with
    | none => (.error "Search canceled.", [.gh, .fzf])
    | some selection =>
      let parts := selection.splitOn "\t"
      let fullName := parts.headD ""
      let url := (parts.drop 1).headD ""
      let nameParts := fullName.splitOn "/"
      (.ok { owner := nameParts.headD "", repo := (nameParts.drop 1).headD ""
             url := url }, [.gh, .fzf])

/-- Model of `resolveRepo` (src/src/index.ts:301): exact parse first (no calls),
then local/history search, then remote search. -/
def resolveRepo (env : ResolveEnv) (input : String) : ResolveOut :=
  match parseRepoSlug input with
  | some parsed => { result := .ok parsed, calls := [] }
  | none =>
    match searchLocalAndHistory env input with
    | (.error e, cs) => { result := .error e, calls := cs }
    | (.ok (some r), cs) => { result := .ok r, calls := cs }
    | (.ok none, cs) =>
      let s := searchRepo env input
      { result := s.1, calls := cs ++ s.2 }

/-! ### Repository lifecycle (`describeRepoStatus` / `handleRepo`)

Git subprocess results are an explicit environment (`GitEnv`); the git
commands an execution issues (attempted ones included: a command that
fails is still recorded before the failure propagates) are returned as a
trace of `GitOp`s, and metadata writes as the ordered list of records the
run passes to `writeMeta`. -/

/-- One git subprocess invocation of the lifecycle manager. -/
inductive GitOp where
  | showRefLocal (branch : String)
  | showRefRemote (branch : String)
  | showCurrent
  | fetchBranch (branch : String)
  | fetchAll
  | revList (localRef : String) (branch : String)
  | logDate (ref : String)
  | checkout (branch : String)
  | checkoutTrack (branch : String)
  | pullFFOnly
  | clone (url : String) (branch : String)
deriving DecidableEq, Repr

/-- Results of the git subprocesses `handleRepo` may consult: one field
per command, giving its success and (where consumed) its parsed output. -/
structure GitEnv where
  localRefExists : String → Bool
  currentBranch : Option String
  fetchBranchOk : String → Bool
  remoteRefExists : String → Bool
  revListOk : Bool
  revListCount : Option Int
  remoteDateOk : Bool
  localDateOk : Bool
  checkoutOk : String → Bool
  checkoutTrackOk : String → Bool
  fetchAllOk : Bool
  pullFFOk : Bool

/-- One segment of the status display line built by `describeRepoStatus`
(the formatted dates and colors are irrelevant here and abstracted to
tags). -/
inductive StatusSegment where
  | cloned
  | upToDate
  | behindCount (n : Int)
  | behindRemote
  | updatedRemote
  | updatedLocal
  | failedRemoteRef
  | failedFetch
deriving DecidableEq, Repr

/-- Model of `RepoStatusInfo` (src/src/index.ts:936). -/
structure RepoStatusInfo where
  display : List StatusSegment
  behind : Option Int
deriving DecidableEq, Repr

/-- Model of `describeRepoStatus` (src/src/index.ts:941): pick the local ref,
fetch the remote tracking ref for the branch, and count commits
remote-not-local.  A failing fetch or `rev-list` is caught and degrades
to `behind = none` with a `failedFetch` warning; a missing remote
tracking ref degrades to `behind = none` with a `failedRemoteRef`
warning; a count that parses and is `≤ 0` reports up to date
(`behind = some 0`); a positive count is reported; a count that parses
to `NaN` reports `behindRemote` with `behind = none`. -/
def describeRepoStatus (env : GitEnv) (branch : String) (meta : Option RepoMeta) :
    RepoStatusInfo × List GitOp :=
  let clonedSeg : List StatusSegment :=
    match meta with
    | some m => if m.clonedAt.isSome then [.cloned] else []
    | none => []
  let localRef := if env.localRefExists branch then "refs/heads/" ++ branch else "HEAD"
  let ops0 := [GitOp.showRefLocal branch]
  if env.fetchBranchOk branch then
    let ops1 := ops0 ++ [GitOp.fetchBranch branch, GitOp.showRefRemote branch]
    if env.remoteRefExists branch then
      if env.revListOk then
        let ops2 := ops1 ++
          [GitOp.revList localRef branch,
           GitOp.logDate ("refs/remotes/origin/" ++ branch)]
        match env.revListCount with
        | some behind =>
          if behind ≤ 0 then ({ display := [.upToDate], behind := some 0 }, ops2)
          else
            ({ display := [.behindCount behind] ++ clonedSeg ++
                 (if env.remoteDateOk then [.updatedRemote] else [])
               behind := some behind }, ops2)
        | none =>
          ({ display := [.behindRemote] ++ clonedSeg ++
               (if env.remoteDateOk then [.updatedRemote] else [])
             behind := none }, ops2)
      else
        ({ display := clonedSeg ++
             (if env.localDateOk then [.updatedLocal] else []) ++ [.failedFetch]
           behind := none },
         ops1 ++ [GitOp.revList localRef branch, GitOp.logDate localRef])
    else
      ({ display := clonedSeg ++ [.failedRemoteRef], behind := none }, ops1)
  else
    ({ display := clonedSeg ++
         (if env.localDateOk then [.updatedLocal] else []) ++ [.failedFetch]
       behind := none },
     ops0 ++ [GitOp.fetchBranch branch, GitOp.logDate localRef])

/-- A git-command sequence outcome: the commands issued and whether the
last one succeeded (`ok = false` models a thrown `GitOperationError`). -/
structure OpsResult where
  ops : List GitOp
  ok : Bool
deriving Repr

/-- Model of `checkoutBranch` (src/src/index.ts:984): check the local ref; when
present, plain checkout; when absent, fetch the single remote branch and
create a local tracking branch from it. -/
def checkoutBranch (env : GitEnv) (branch : String) : OpsResult :=
  if env.localRefExists branch then
    { ops := [.showRefLocal branch, .checkout branch], ok := env.checkoutOk branch }
  else if env.fetchBranchOk branch then
    { ops := [.showRefLocal branch, .fetchBranch branch, .checkoutTrack branch]
      ok := env.checkoutTrackOk branch }
  else
    { ops := [.showRefLocal branch, .fetchBranch branch], ok := false }

/-- Model of `pullRepo` (src/src/index.ts:995): `git fetch origin`, then
`checkoutBranch`, then `git pull --ff-only`; the first failure aborts. -/
def pullRepo (env : GitEnv) (branch : String) : OpsResult :=
  if env.fetchAllOk then
    if (checkoutBranch env branch).ok then
      { ops := GitOp.fetchAll :: (checkoutBranch env branch).ops ++ [GitOp.pullFFOnly]
        ok := env.pullFFOk }
    else { ops := GitOp.fetchAll :: (checkoutBranch env branch).ops, ok := false }
  else { ops := [GitOp.fetchAll], ok := false }

/-- Model of `updateMetaAccess` (src/src/index.ts:1010): copy the record, setting
`branch` and stamping `lastAccess` with the current time. -/
def updateMetaAccess (meta : RepoMeta) (branch : String) (now : Int) : RepoMeta :=
  { meta with branch := branch, lastAccess := some now }

/-- Model of `selectBranch` (src/src/index.ts:407): a forced branch is returned
unchanged with no validation; otherwise the remote listing and the
interactive chooser produce `chosenBranch` (`none` models a canceled
selection, which throws).  The listing internals (default-branch symref,
sorted/unsorted fallback, dedup and ordering) feed only the chooser and
are absorbed into `chosenBranch`. -/
def selectBranch (forcedBranch : Option String) (chosenBranch : Option String) :
    Option String :=
  forcedBranch <|> chosenBranch

/-- The update test on the key read at the `PresentBehind`/
`PresentUnknown` prompt (src/src/index.ts:1171): first character is Tab,
or lowercases to `u`. -/
def wantsUpdate (key : String) : Bool :=
  key.toList.head? == some '\t' || (key.toList.head?).map Char.toLower == some 'u'

/-- All inputs of one `handleRepo` run: the resolved reference, the
on-disk state, the prompt key, the branch selection, subprocess results,
and the successive clock readings (`tClone` at the post-clone timestamp,
`tNow` at the pre-launch metadata write, `tPost` at the post-launch
rewrite). -/
structure HandleInput where
  owner : String
  repoName : String
  url : String
  dirExists : Bool
  meta : Option RepoMeta
  branchOverride : Option String
  userKey : String
  chosenBranch : Option String
  cloneOk : Bool
  launchOk : Bool
  tClone : Int
  tNow : Int
  tPost : Int
  env : GitEnv

/-- Result of the cached-repository branch of `handleRepo`. -/
structure PresentResult where
  ops : List GitOp
  statusBranch : String
  status : RepoStatusInfo
  ok : Bool
deriving Repr

/-- The effective branch on the cached path (src/src/index.ts:1158):
override, then remembered `meta.branch`, then the currently checked-out
branch, then `"main"`. -/
def effBranch (env : GitEnv) (branchOverride : Option String)
    (meta : Option RepoMeta) : String :=
  ((branchOverride <|> meta.map (·.branch)) <|> env.currentBranch).getD "main"

/-- The `git branch --show-current` call happens only when neither an
override nor a remembered branch is available (src/src/index.ts:1161). -/
def curOpsOf (branchOverride : Option String) (meta : Option RepoMeta) :
    List GitOp :=
  if (branchOverride <|> meta.map (·.branch)).isNone then [GitOp.showCurrent]
  else []

/-- The action part of the cached path (src/src/index.ts:1166): silent
checkout when up to date (`behind = some 0`); otherwise a prompt where
the default key checks out only, Tab/`u` runs `pullRepo` (the dead inner
`behind ≠ 0` guard of the source is kept as written), and Ctrl-C exits
the process. -/
def presentDecide (env : GitEnv) (sb : String) (baseOps : List GitOp)
    (status : RepoStatusInfo) (userKey : String) : PresentResult :=
  if status.behind = some 0 then
    { ops := baseOps ++ (checkoutBranch env sb).ops, statusBranch := sb
      status, ok := (checkoutBranch env sb).ok }
  else if userKey = "\x03" then
    { ops := baseOps, statusBranch := sb, status, ok := false }
  else if wantsUpdate userKey then
    if status.behind ≠ some 0 then
      { ops := baseOps ++ (pullRepo env sb).ops, statusBranch := sb
        status, ok := (pullRepo env sb).ok }
    else
      { ops := baseOps, statusBranch := sb, status, ok := true }
  else
    { ops := baseOps ++ (checkoutBranch env sb).ops, statusBranch := sb
      status, ok := (checkoutBranch env sb).ok }

/-- The `existsSync(targetDir)` branch of `handleRepo`
(src/src/index.ts:1152): resolve the effective branch, compute the
status, and decide the action. -/
def presentPhase (env : GitEnv) (branchOverride : Option String)
    (meta : Option RepoMeta) (userKey : String) : PresentResult :=
  presentDecide env (effBranch env branchOverride meta)
    (curOpsOf branchOverride meta ++
      (describeRepoStatus env (effBranch env branchOverride meta) meta).2)
    (describeRepoStatus env (effBranch env branchOverride meta) meta).1
    userKey

/-- What one `handleRepo` run did: git commands issued, metadata records
written (in order), history entries appended, and whether the run aborted
before completing. -/
structure Outcome where
  ops : List GitOp
  writes : List RepoMeta
  history : List String
  aborted : Bool
deriving Repr

/-- The metadata record built at src/src/index.ts:1190: `clonedAt` is
the carried-over value when one exists, the current time otherwise;
`lastAccess` is the current time; `branch` falls back to `"main"`. -/
def finishMeta (inp : HandleInput) (clonedAt : Option Timestamp)
    (branch : Option String) : RepoMeta :=
  { repoUrl := inp.url
    repoFullName := inp.owner ++ "/" ++ inp.repoName
    branch := branch.getD "main"
    clonedAt := clonedAt.getD (some inp.tNow)
    lastAccess := some inp.tNow }

/-- The common tail of `handleRepo` (src/src/index.ts:1189): write the
metadata record, launch the target, and on successful exit re-write with
`updateMetaAccess` at the post-launch time; a failing launch throws
after the first write. -/
def finishPhase (inp : HandleInput) (ops : List GitOp)
    (clonedAt : Option Timestamp) (branch : Option String)
    (history : List String) : Outcome :=
  if inp.launchOk then
    { ops
      writes := [finishMeta inp clonedAt branch,
        updateMetaAccess (finishMeta inp clonedAt branch) (branch.getD "main")
          inp.tPost]
      history, aborted := false }
  else
    { ops, writes := [finishMeta inp clonedAt branch], history, aborted := true }

/-- Continuation of the cached-repository path: a failed git operation in
`presentPhase` aborts the invocation before any metadata write; otherwise
the run finishes with `clonedAt` carried over from the loaded metadata. -/
def presentFinish (inp : HandleInput) (p : PresentResult) : Outcome :=
  if p.ok then
    finishPhase inp p.ops (inp.meta.map (·.clonedAt)) (some p.statusBranch) []
  else
    { ops := p.ops, writes := [], history := [], aborted := true }

/-- Continuation of the absent-repository path after branch selection:
clone (aborting the invocation on failure), stamp `clonedAt` with the
post-clone time, append one history entry, and finish. -/
def cloneFinish (inp : HandleInput) (b : String) : Outcome :=
  if inp.cloneOk then
    finishPhase inp [GitOp.clone inp.url b] (some (some inp.tClone)) (some b)
      [inp.owner ++ "/" ++ inp.repoName]
  else
    { ops := [GitOp.clone inp.url b], writes := [], history := [], aborted := true }

/-- Branch-selection outcome on the absent-repository path: a canceled
selection throws before any git operation. -/
def afterSelect (inp : HandleInput) : Option String → Outcome
  | none => { ops := [], writes := [], history := [], aborted := true }
  | some b => cloneFinish inp b

/-- Model of `handleRepo` (src/src/index.ts:1135): an existing target directory
goes through `presentPhase` with `clonedAt` carried over from the loaded
metadata; an absent one selects a branch, clones, stamps `clonedAt` with
the post-clone time and appends one history entry; both paths finish with
the metadata writes and the launch. -/
def handleRepo (inp : HandleInput) : Outcome :=
  if inp.dirExists then
    presentFinish inp (presentPhase inp.env inp.branchOverride inp.meta inp.userKey)
  else
    afterSelect inp (selectBranch inp.branchOverride inp.chosenBranch)

/-! ## Claim about directory removal (C7) -/

theorem mem_rmRec (l : Fs) (r q : FPath) : q ∈ rmRec l r ↔ q ∈ l ∧ ¬ r <+: q := by
  simp [rmRec, List.mem_filter]

theorem not_prefix_of_lt_length {r q : FPath} (h : q.length < r.length) :
    ¬ r <+: q := by
  intro hpre
  have := hpre.length_le
  omega

theorem not_prefix_dropLast {p : FPath} (hp : p ≠ []) : ¬ p <+: p.dropLast := by
  apply not_prefix_of_lt_length
  rw [List.length_dropLast]
  have : 0 < p.length := List.length_pos.mpr hp
  omega

/-- C7: removal of a repository directory `p` (present in the
filesystem, not the root): (i) `p` and everything below it is gone;
(ii) when the parent (owner) directory exists, it is deleted afterwards
iff the removal of `p` left it without children; (iii) when children
remain under the parent, every node outside the removed subtree — in
particular every sibling repository — is left intact; (iv) cleanup never
proceeds beyond the one parent level: every strictly shallower node
survives unconditionally. -/
theorem C7_removeDir_one_level_cleanup (fs : Fs) (p : FPath)
    (hp : p ≠ []) (hmem : p ∈ fs) :
    (∀ q : FPath, p <+: q → q ∉ removeDir fs p)
    ∧ (p.dropLast ∈ fs →
        (p.dropLast ∈ removeDir fs p ↔ childrenOf (rmRec fs p) p.dropLast ≠ []))
    ∧ (∀ q ∈ fs, ¬ p <+: q → childrenOf (rmRec fs p) p.dropLast ≠ [] →
        q ∈ removeDir fs p)
    ∧ (∀ q ∈ fs, q.length < p.dropLast.length → q ∈ removeDir fs p) := by
  have hc : fs.contains p = true := by simpa using hmem
  have hres : removeDir fs p = removeParentIfEmpty (rmRec fs p) p.dropLast := by
    rw [removeDir, hc]
    rfl
  have hsub : ∀ q : FPath, q ∈ removeParentIfEmpty (rmRec fs p) p.dropLast →
      q ∈ rmRec fs p := by
    intro q hq
    rw [removeParentIfEmpty] at hq
    split at hq
    · split at hq
      · exact ((mem_rmRec _ _ _).mp hq).1
      · exact hq
    · exact hq
  refine ⟨?_, ?_, ?_, ?_⟩
  · intro q hpre hq
    rw [hres] at hq
    have := (mem_rmRec fs p q).mp (hsub q hq)
    exact this.2 hpre
  · intro hpf
    have hp1 : p.dropLast ∈ rmRec fs p :=
      (mem_rmRec _ _ _).mpr ⟨hpf, not_prefix_dropLast hp⟩
    have hc1 : (rmRec fs p).contains p.dropLast = true := by simpa using hp1
    rw [hres, removeParentIfEmpty]
    by_cases hch : childrenOf (rmRec fs p) p.dropLast = []
    · have hself : p.dropLast ∉ rmRec (rmRec fs p) p.dropLast := by
        intro hq
        exact ((mem_rmRec _ _ _).mp hq).2 (by simp)
      simp [hc1, hch, hself, hp1]
    · simp [hc1, hch, hp1]
  · intro q hq hnpre hch
    have hq1 : q ∈ rmRec fs p := (mem_rmRec _ _ _).mpr ⟨hq, hnpre⟩
    rw [hres, removeParentIfEmpty]
    by_cases hcp : List.dropLast p ∈ rmRec fs p <;>
      simp [hcp, hch, hq1]
  · intro q hq hlen
    have h1 : ¬ p <+: q := not_prefix_of_lt_length (by
      rw [List.length_dropLast] at hlen
      omega)
    have hq1 : q ∈ rmRec fs p := (mem_rmRec _ _ _).mpr ⟨hq, h1⟩
    have hq2 : q ∈ rmRec (rmRec fs p) p.dropLast :=
      (mem_rmRec _ _ _).mpr ⟨hq1, not_prefix_of_lt_length hlen⟩
    rw [hres, removeParentIfEmpty]
    by_cases hcp : List.dropLast p ∈ rmRec fs p <;>
      by_cases hch : childrenOf (rmRec fs p) p.dropLast = [] <;>
        simp [hcp, hch, hq1, hq2]

/-- A cache with one owner holding two repositories (plus a file inside
the first): siblings case. -/
def fsTwoRepos : Fs :=
  [[], ["o"], ["o", "r1"], ["o", "r1", "f"], ["o", "r2"]]

/-- A cache with one owner holding a single repository: last-repo case. -/
def fsOneRepo : Fs :=
  [[], ["o"], ["o", "r1"], ["o", "r1", "f"]]

/-- Witness for C7, both scenarios: removing `o/r1` with a sibling `o/r2`
deletes the `r1` subtree and keeps the sibling and the owner; removing
`o/r1` when it is the last repository also removes the owner `o`, but the
base directory above it survives. -/
theorem C7_witness :
    ["o", "r1", "f"] ∉ removeDir fsTwoRepos ["o", "r1"]
    ∧ ["o", "r2"] ∈ removeDir fsTwoRepos ["o", "r1"]
    ∧ ["o"] ∈ removeDir fsTwoRepos ["o", "r1"]
    ∧ (["o"] ∈ removeDir fsOneRepo ["o", "r1"] ↔
        childrenOf (rmRec fsOneRepo ["o", "r1"]) ["o"] ≠ [])
    ∧ [] ∈ removeDir fsOneRepo ["o", "r1"] :=
  ⟨(C7_removeDir_one_level_cleanup fsTwoRepos ["o", "r1"] (by decide)
      (by decide)).1 ["o", "r1", "f"] (by decide),
   (C7_removeDir_one_level_cleanup fsTwoRepos ["o", "r1"] (by decide)
      (by decide)).2.2.1 ["o", "r2"] (by decide) (by decide) (by decide),
   (C7_removeDir_one_level_cleanup fsTwoRepos ["o", "r1"] (by decide)
      (by decide)).2.2.1 ["o"] (by decide) (by decide) (by decide),
   (C7_removeDir_one_level_cleanup fsOneRepo ["o", "r1"] (by decide)
      (by decide)).2.1 (by decide),
   (C7_removeDir_one_level_cleanup fsOneRepo ["o", "r1"] (by decide)
      (by decide)).2.2.2 [] (by decide) (by decide)⟩

/-! ## Claims about the TTL evictor (C5, C10) -/

/-- C5: for every cache entry whose `lastAccess` parses to the instant
`t` and every `ttlMs`, the TTL evictor purges the entry iff
`now - lastAccess > ttlMs`, with strict inequality: at the exact boundary
`now - lastAccess = ttlMs` the entry is retained, and membership in the
purged set of `purgeRepos` follows the same strict test. -/
theorem C5_ttl_purge_iff_strictly_stale (now ttlMs t : Int) (e : RepoEntry)
    (h : e.meta.lastAccess = some t) :
    (shouldPurge now e ttlMs = true ↔ now - t > ttlMs)
    ∧ (now - t = ttlMs → shouldPurge now e ttlMs = false)
    ∧ ∀ entries : List RepoEntry,
        (e ∈ purgeRepos now entries ttlMs ↔ e ∈ entries ∧ now - t > ttlMs) := by
  refine ⟨?_, ?_, ?_⟩
  · simp [shouldPurge, h]
  · intro hb
    simp [shouldPurge, h, hb]
  · intro entries
    simp [purgeRepos, List.mem_filter, shouldPurge, h]

/-- An entry whose `lastAccess` is exactly `ttlMs` old at `now = 200`,
`ttlMs = 100`. -/
def entryAtBoundary : RepoEntry :=
  { path := ["o", "r"]
    meta := { repoUrl := "https://github.com/o/r", repoFullName := "o/r"
              branch := "main", clonedAt := some 50, lastAccess := some 100 } }

/-- Witness for C5 at the boundary: the entry aged exactly `ttlMs` is
retained, and it is absent from the purge set. -/
theorem C5_witness :
    shouldPurge 200 entryAtBoundary 100 = false
    ∧ (entryAtBoundary ∈ purgeRepos 200 [entryAtBoundary] 100 ↔
        entryAtBoundary ∈ [entryAtBoundary] ∧ (200 : Int) - 100 > 100) :=
  ⟨(C5_ttl_purge_iff_strictly_stale 200 100 100 entryAtBoundary rfl).2.1 rfl,
   (C5_ttl_purge_iff_strictly_stale 200 100 100 entryAtBoundary rfl).2.2
     [entryAtBoundary]⟩

/-- C10: for every cache entry whose `lastAccess` does not parse to a
finite timestamp, `shouldPurge` is false for every `now` and every
`ttlMs`, so the TTL evictor never selects the entry for deletion: it is
retained indefinitely by automatic purge. -/
theorem C10_corrupt_lastAccess_never_purged (e : RepoEntry)
    (h : e.meta.lastAccess = none) :
    ∀ now ttlMs : Int,
      shouldPurge now e ttlMs = false
      ∧ ∀ entries : List RepoEntry, e ∉ purgeRepos now entries ttlMs := by
  intro now ttlMs
  constructor
  · simp [shouldPurge, h]
  · intro entries hmem
    rw [purgeRepos, List.mem_filter] at hmem
    simp [shouldPurge, h] at hmem

/-- An entry whose `lastAccess` string does not parse (`NaN`). -/
def entryCorrupt : RepoEntry :=
  { path := ["o", "bad"]
    meta := { repoUrl := "https://github.com/o/bad", repoFullName := "o/bad"
              branch := "main", clonedAt := some 50, lastAccess := none } }

/-- Witness for C10: the corrupt entry is not purged even with a huge age
and a zero TTL. -/
theorem C10_witness :
    shouldPurge 1000000 entryCorrupt 0 = false
    ∧ entryCorrupt ∉ purgeRepos 1000000 [entryAtBoundary, entryCorrupt] 0 :=
  ⟨(C10_corrupt_lastAccess_never_purged entryCorrupt rfl 1000000 0).1,
   (C10_corrupt_lastAccess_never_purged entryCorrupt rfl 1000000 0).2
     [entryAtBoundary, entryCorrupt]⟩

/-! ## Claim about history reconciliation (C8) -/

theorem syncStep_of_mem (logged : List String) (now : Int)
    (h0 : List HistoryEntry) (e : RepoEntry)
    (hc : e.meta.repoFullName ∈ logged) :
    syncStep logged now h0 e = h0 := by
  simp [syncStep, hc]

theorem syncStep_of_not_mem (logged : List String) (now : Int)
    (h0 : List HistoryEntry) (e : RepoEntry)
    (hc : e.meta.repoFullName ∉ logged) :
    syncStep logged now h0 e = h0 ++ [⟨e.meta.repoFullName, some now⟩] := by
  simp [syncStep, hc, appendHistory]

theorem syncStep_foldl_grows (logged : List String) (now : Int)
    (entries : List RepoEntry) (h0 : List HistoryEntry) :
    ∃ suffix, entries.foldl (syncStep logged now) h0 = h0 ++ suffix := by
  induction entries generalizing h0 with
  | nil => exact ⟨[], by simp⟩
  | cons e es ih =>
    by_cases hc : e.meta.repoFullName ∈ logged
    · rcases ih h0 with ⟨suffix, hs⟩
      exact ⟨suffix, by rw [List.foldl_cons, syncStep_of_mem logged now h0 e hc, hs]⟩
    · rcases ih (h0 ++ [⟨e.meta.repoFullName, some now⟩]) with ⟨suffix, hs⟩
      refine ⟨⟨e.meta.repoFullName, some now⟩ :: suffix, ?_⟩
      rw [List.foldl_cons, syncStep_of_not_mem logged now h0 e hc, hs,
        List.append_assoc]
      rfl

theorem syncStep_foldl_covers (logged : List String) (now : Int)
    (entries : List RepoEntry) (h0 : List HistoryEntry) :
    ∀ e ∈ entries, e.meta.repoFullName ∈ logged
      ∨ e.meta.repoFullName ∈
          (entries.foldl (syncStep logged now) h0).map (·.repoFullName) := by
  induction entries generalizing h0 with
  | nil => simp
  | cons e es ih =>
    intro x hx
    rcases List.mem_cons.mp hx with h1 | h1
    · subst h1
      by_cases hc : x.meta.repoFullName ∈ logged
      · exact Or.inl hc
      · right
        rw [List.foldl_cons, syncStep_of_not_mem logged now h0 x hc]
        rcases syncStep_foldl_grows logged now es
          (h0 ++ [⟨x.meta.repoFullName, some now⟩]) with ⟨suffix, hs⟩
        rw [hs]
        simp
    · exact ih (syncStep logged now h0 e) x h1

theorem syncStep_foldl_id (logged : List String) (now : Int)
    (entries : List RepoEntry) (h0 : List HistoryEntry)
    (hall : ∀ e ∈ entries, e.meta.repoFullName ∈ logged) :
    entries.foldl (syncStep logged now) h0 = h0 := by
  induction entries generalizing h0 with
  | nil => simp
  | cons e es ih =>
    rw [List.foldl_cons, syncStep_of_mem logged now h0 e (hall e (by simp))]
    exact ih h0 fun x hx => hall x (by simp [hx])

/-- C8: `syncHistory` is idempotent — running it a second time
immediately after a first run appends no entries, whatever the base
directory contents and the history log. -/
theorem C8_syncHistory_idempotent (entries : List RepoEntry)
    (history : List HistoryEntry) (now1 now2 : Int) :
    syncHistory entries (syncHistory entries history now1) now2 =
      syncHistory entries history now1 := by
  by_cases hne : entries = []
  · simp [syncHistory, hne]
  · have hfold : syncHistory entries history now1 =
        entries.foldl (syncStep (history.map (·.repoFullName)) now1) history := by
      simp [syncHistory, hne]
    rw [syncHistory, if_neg hne]
    apply syncStep_foldl_id
    intro e he
    have hcov := syncStep_foldl_covers (history.map (·.repoFullName)) now1
      entries history e he
    rcases hcov with hlog | hmem
    · rcases syncStep_foldl_grows (history.map (·.repoFullName)) now1
        entries history with ⟨suffix, hs⟩
      rw [hfold, hs, List.map_append]
      exact List.mem_append_left _ hlog
    · rw [hfold]
      exact hmem

/-! ## Claims about the metadata writes of `handleRepo` (C2, C9) -/

theorem mem_finishPhase_writes (inp : HandleInput) (ops : List GitOp)
    (cav : Option Timestamp) (b : Option String) (hist : List String) :
    ∀ w ∈ (finishPhase inp ops cav b hist).writes,
      w.clonedAt = cav.getD (some inp.tNow)
      ∧ (w.lastAccess = some inp.tNow ∨ w.lastAccess = some inp.tPost)
      ∧ w.branch = b.getD "main" := by
  intro w hw
  rw [finishPhase] at hw
  split at hw
  · rcases List.mem_cons.mp hw with h1 | h1
    · subst h1
      simp [finishMeta]
    · rcases List.mem_cons.mp h1 with h2 | h2
      · subst h2
        simp [finishMeta, updateMetaAccess]
      · simp at h2
  · rcases List.mem_cons.mp hw with h1 | h1
    · subst h1
      simp [finishMeta]
    · simp at h1

theorem handleRepo_writes_present (inp : HandleInput) (hd : inp.dirExists = true) :
    ∀ w ∈ (handleRepo inp).writes,
      w.clonedAt = (inp.meta.map (·.clonedAt)).getD (some inp.tNow)
      ∧ (w.lastAccess = some inp.tNow ∨ w.lastAccess = some inp.tPost) := by
  intro w hw
  rw [handleRepo, if_pos hd, presentFinish] at hw
  split at hw
  · have := mem_finishPhase_writes inp _ _ _ _ w hw
    exact ⟨this.1, this.2.1⟩
  · simp at hw

theorem handleRepo_writes_absent (inp : HandleInput) (hd : inp.dirExists = false) :
    ∀ w ∈ (handleRepo inp).writes,
      w.clonedAt = some inp.tClone
      ∧ (w.lastAccess = some inp.tNow ∨ w.lastAccess = some inp.tPost) := by
  intro w hw
  rw [handleRepo, if_neg (by rw [hd]; exact Bool.false_ne_true)] at hw
  rcases hsel : selectBranch inp.branchOverride inp.chosenBranch with _ | b <;>
    rw [hsel] at hw <;> simp only [afterSelect] at hw
  · simp at hw
  · rw [cloneFinish] at hw
    split at hw
    · have := mem_finishPhase_writes inp _ _ _ _ w hw
      exact ⟨this.1, this.2.1⟩
    · simp at hw

/-- C2: `clonedAt` is set exactly once, at the first successful clone
(every record written by the clone path carries the post-clone
timestamp), and no metadata write of a later run on a cached repository
with readable metadata ever changes it (every record written carries the
loaded `clonedAt` unchanged — through checkout, pull, launch, and the
post-launch access update alike). -/
theorem C2_clonedAt_immutable (inp : HandleInput) :
    (inp.dirExists = false →
      ∀ w ∈ (handleRepo inp).writes, w.clonedAt = some inp.tClone)
    ∧ ∀ m : RepoMeta, inp.meta = some m → inp.dirExists = true →
      ∀ w ∈ (handleRepo inp).writes, w.clonedAt = m.clonedAt := by
  constructor
  · intro hd w hw
    exact (handleRepo_writes_absent inp hd w hw).1
  · intro m hm hd w hw
    have := (handleRepo_writes_present inp hd w hw).1
    rw [hm] at this
    simpa using this

/-- The metadata of a cached repository, as loaded at reuse time. -/
def metaReuse : RepoMeta :=
  { repoUrl := "https://github.com/o/r", repoFullName := "o/r"
    branch := "main", clonedAt := some 10, lastAccess := some 20 }

/-- A git environment where the remote is reachable and reports the
branch three commits ahead of the local checkout. -/
def envBehindThree : GitEnv :=
  { localRefExists := fun _ => true, currentBranch := none
    fetchBranchOk := fun _ => true, remoteRefExists := fun _ => true
    revListOk := true, revListCount := some 3
    remoteDateOk := true, localDateOk := true
    checkoutOk := fun _ => true, checkoutTrackOk := fun _ => true
    fetchAllOk := true, pullFFOk := true }

/-- A git environment where every remote interaction fails (offline). -/
def envOffline : GitEnv :=
  { localRefExists := fun _ => true, currentBranch := none
    fetchBranchOk := fun _ => false, remoteRefExists := fun _ => false
    revListOk := false, revListCount := none
    remoteDateOk := false, localDateOk := true
    checkoutOk := fun _ => true, checkoutTrackOk := fun _ => true
    fetchAllOk := false, pullFFOk := false }

/-- A reuse run: the target directory exists with readable metadata, the
remote reports three commits behind, and the user accepts the default
action. -/
def inpReuse : HandleInput :=
  { owner := "o", repoName := "r", url := "https://github.com/o/r"
    dirExists := true, meta := some metaReuse, branchOverride := none
    userKey := "\r", chosenBranch := none, cloneOk := true, launchOk := true
    tClone := 100, tNow := 101, tPost := 200, env := envBehindThree }

/-- A first-clone run: the target directory is absent and the user picks
the branch `dev` interactively. -/
def inpClone : HandleInput :=
  { owner := "o", repoName := "r", url := "https://github.com/o/r"
    dirExists := false, meta := none, branchOverride := none
    userKey := "", chosenBranch := some "dev", cloneOk := true, launchOk := true
    tClone := 100, tNow := 101, tPost := 200, env := envBehindThree }

/-- Witness for C2: the clone run stamps both written records with the
post-clone time, and the reuse run carries the loaded `clonedAt` through
both written records. -/
theorem C2_witness :
    (((handleRepo inpClone).writes.headD metaReuse).clonedAt = some 100)
    ∧ (((handleRepo inpClone).writes.getD 1 metaReuse).clonedAt = some 100)
    ∧ (((handleRepo inpReuse).writes.headD metaReuse).clonedAt = some 10)
    ∧ (((handleRepo inpReuse).writes.getD 1 metaReuse).clonedAt = some 10) :=
  ⟨(C2_clonedAt_immutable inpClone).1 rfl _ (by decide),
   (C2_clonedAt_immutable inpClone).1 rfl _ (by decide),
   (C2_clonedAt_immutable inpReuse).2 metaReuse rfl rfl _ (by decide),
   (C2_clonedAt_immutable inpReuse).2 metaReuse rfl rfl _ (by decide)⟩

/-- C9: under a monotone clock (any `clonedAt` the run carries over was
stamped no later than the current write time, the post-clone time
precedes the pre-launch write time, which precedes the post-launch write
time), every metadata record `handleRepo` writes — the initial clone
write, the reuse rewrite, and the post-launch access update — satisfies
`clonedAt ≤ lastAccess` whenever both timestamps parse. -/
theorem C9_clonedAt_le_lastAccess (inp : HandleInput)
    (hmono : ∀ m : RepoMeta, inp.meta = some m →
      ∀ t : Int, m.clonedAt = some t → t ≤ inp.tNow)
    (hclone : inp.tClone ≤ inp.tNow) (hpost : inp.tNow ≤ inp.tPost) :
    ∀ w ∈ (handleRepo inp).writes, ∀ tc tl : Int,
      w.clonedAt = some tc → w.lastAccess = some tl → tc ≤ tl := by
  intro w hw tc tl htc htl
  have htl' : inp.tNow ≤ tl := by
    rcases hd : inp.dirExists with _ | _
    · rcases (handleRepo_writes_absent inp hd w hw).2 with h | h <;>
        rw [h] at htl <;> injection htl with htl <;> omega
    · rcases (handleRepo_writes_present inp hd w hw).2 with h | h <;>
        rw [h] at htl <;> injection htl with htl <;> omega
  have htc' : tc ≤ inp.tNow := by
    rcases hd : inp.dirExists with _ | _
    · have := (handleRepo_writes_absent inp hd w hw).1
      rw [this] at htc
      injection htc with htc
      omega
    · have := (handleRepo_writes_present inp hd w hw).1
      rcases hmeta : inp.meta with _ | m
      · rw [hmeta] at this
        simp at this
        rw [this] at htc
        injection htc with htc
        omega
      · rw [hmeta] at this
        simp at this
        rw [this] at htc
        exact hmono m hmeta tc htc
  omega

/-- Witness for C9: both records written by the concrete clone run and
both written by the concrete reuse run satisfy the invariant at their
parsed timestamps. -/
theorem C9_witness :
    ((100 : Int) ≤ 101 ∧ (100 : Int) ≤ 200) ∧ ((10 : Int) ≤ 101) :=
  ⟨⟨C9_clonedAt_le_lastAccess inpClone
      (by intro m hm t ht; simp [inpClone] at hm) (by decide)
      (by decide) ((handleRepo inpClone).writes.headD metaReuse) (by decide)
      100 101 (by decide) (by decide),
    C9_clonedAt_le_lastAccess inpClone
      (by intro m hm t ht; simp [inpClone] at hm) (by decide)
      (by decide) ((handleRepo inpClone).writes.getD 1 metaReuse) (by decide)
      100 200 (by decide) (by decide)⟩,
   C9_clonedAt_le_lastAccess inpReuse
      (by
        intro m hm t ht
        have hm' : (some metaReuse : Option RepoMeta) = some m := hm
        injection hm' with hm'
        rw [← hm'] at ht
        have ht' : (some (10 : Int) : Option Int) = some t := ht
        injection ht' with ht'
        show t ≤ (101 : Int)
        omega)
      (by decide) (by decide) ((handleRepo inpReuse).writes.headD metaReuse)
      (by decide) 10 101 (by decide) (by decide)⟩

/-! ## Claims about the status check and the behind prompt (C1, C4) -/

/-- The effective branch of a `handleRepo` run on the cached path. -/
def effectiveBranch (inp : HandleInput) : String :=
  effBranch inp.env inp.branchOverride inp.meta

/-- The status a `handleRepo` run computes on the cached path. -/
def statusOf (inp : HandleInput) : RepoStatusInfo :=
  (describeRepoStatus inp.env (effectiveBranch inp) inp.meta).1

theorem status_ops_no_sync (env : GitEnv) (b : String) (m : Option RepoMeta) :
    GitOp.pullFFOnly ∉ (describeRepoStatus env b m).2
    ∧ GitOp.fetchAll ∉ (describeRepoStatus env b m).2 := by
  constructor <;>
  · simp only [describeRepoStatus]
    repeat' split
    all_goals simp

theorem curOps_no_sync (bo : Option String) (m : Option RepoMeta) :
    GitOp.pullFFOnly ∉ curOpsOf bo m ∧ GitOp.fetchAll ∉ curOpsOf bo m := by
  constructor <;>
  · rw [curOpsOf]
    split <;> simp

theorem checkoutBranch_no_sync (env : GitEnv) (b : String) :
    GitOp.pullFFOnly ∉ (checkoutBranch env b).ops
    ∧ GitOp.fetchAll ∉ (checkoutBranch env b).ops := by
  constructor <;>
  · rw [checkoutBranch]
    repeat' split
    all_goals simp

theorem checkoutBranch_mem (env : GitEnv) (b : String)
    (hok : (checkoutBranch env b).ok = true) :
    GitOp.checkout b ∈ (checkoutBranch env b).ops
    ∨ GitOp.checkoutTrack b ∈ (checkoutBranch env b).ops := by
  by_cases h1 : env.localRefExists b = true
  · rw [checkoutBranch, if_pos h1]
    left
    simp
  · by_cases h2 : env.fetchBranchOk b = true
    · rw [checkoutBranch, if_neg h1, if_pos h2]
      right
      simp
    · rw [checkoutBranch, if_neg h1, if_neg h2] at hok
      exact absurd hok (by simp)

theorem pullRepo_fetches (env : GitEnv) (b : String) :
    GitOp.fetchAll ∈ (pullRepo env b).ops := by
  rw [pullRepo]
  repeat' split
  all_goals simp

theorem pullRepo_pull (env : GitEnv) (b : String)
    (hf : env.fetchAllOk = true) (hc : (checkoutBranch env b).ok = true) :
    GitOp.pullFFOnly ∈ (pullRepo env b).ops
    ∧ (pullRepo env b).ok = env.pullFFOk := by
  rw [pullRepo, if_pos hf, if_pos hc]
  simp

theorem presentFinish_ops (inp : HandleInput) (p : PresentResult) :
    (presentFinish inp p).ops = p.ops := by
  rw [presentFinish]
  split
  · rw [finishPhase]
    split <;> rfl
  · rfl

theorem presentFinish_aborted_false (inp : HandleInput) (p : PresentResult)
    (hok : p.ok = true) (hl : inp.launchOk = true) :
    (presentFinish inp p).aborted = false := by
  rw [presentFinish, if_pos hok, finishPhase, if_pos hl]

theorem presentFinish_not_ok (inp : HandleInput) (p : PresentResult)
    (hok : p.ok = false) :
    (presentFinish inp p).aborted = true ∧ (presentFinish inp p).writes = [] := by
  rw [presentFinish, if_neg (by rw [hok]; exact Bool.false_ne_true)]
  exact ⟨rfl, rfl⟩

theorem presentFinish_writes_head (inp : HandleInput) (p : PresentResult)
    (hok : p.ok = true) :
    (presentFinish inp p).writes.head? =
      some (finishMeta inp (inp.meta.map (·.clonedAt)) (some p.statusBranch)) := by
  rw [presentFinish, if_pos hok, finishPhase]
  split <;> rfl

theorem presentDecide_default (env : GitEnv) (sb : String) (baseOps : List GitOp)
    (status : RepoStatusInfo) (key : String)
    (hb : status.behind ≠ some 0) (hkey : key ≠ "\x03")
    (hupd : wantsUpdate key = false) :
    presentDecide env sb baseOps status key =
      { ops := baseOps ++ (checkoutBranch env sb).ops, statusBranch := sb
        status, ok := (checkoutBranch env sb).ok } := by
  rw [presentDecide, if_neg hb, if_neg hkey, if_neg (by rw [hupd]; exact Bool.false_ne_true)]

theorem presentDecide_update (env : GitEnv) (sb : String) (baseOps : List GitOp)
    (status : RepoStatusInfo) (key : String)
    (hb : status.behind ≠ some 0) (hkey : key ≠ "\x03")
    (hupd : wantsUpdate key = true) :
    presentDecide env sb baseOps status key =
      { ops := baseOps ++ (pullRepo env sb).ops, statusBranch := sb
        status, ok := (pullRepo env sb).ok } := by
  rw [presentDecide, if_neg hb, if_neg hkey, if_pos hupd, if_pos hb]

theorem handleRepo_present_eq (inp : HandleInput) (hd : inp.dirExists = true) :
    handleRepo inp =
      presentFinish inp
        (presentDecide inp.env (effectiveBranch inp)
          (curOpsOf inp.branchOverride inp.meta ++
            (describeRepoStatus inp.env (effectiveBranch inp) inp.meta).2)
          (statusOf inp) inp.userKey) := by
  rw [handleRepo, if_pos hd]
  rfl

/-- C4: on a cached repository reported strictly behind, the prompt
decides between exactly two actions.  The default (any key other than
Tab/`u`) leads to a checkout with no pull of any kind — neither
`git fetch origin` nor `git pull --ff-only` appears in the trace.  The
update key leads to `pullRepo`: `git fetch origin` is attempted, and once
the fetch and the checkout succeed, `git pull --ff-only` runs; a pull
that cannot fast-forward aborts the invocation before any metadata
write, while a successful one is followed by a metadata write carrying
the effective branch and the fresh `lastAccess`. -/
theorem C4_behind_prompt_two_actions (inp : HandleInput) (n : Int)
    (hd : inp.dirExists = true)
    (hb : (statusOf inp).behind = some n) (hn : 0 < n)
    (hkey : inp.userKey ≠ "\x03") :
    (wantsUpdate inp.userKey = false →
      GitOp.pullFFOnly ∉ (handleRepo inp).ops
      ∧ GitOp.fetchAll ∉ (handleRepo inp).ops
      ∧ ((checkoutBranch inp.env (effectiveBranch inp)).ok = true →
          GitOp.checkout (effectiveBranch inp) ∈ (handleRepo inp).ops
          ∨ GitOp.checkoutTrack (effectiveBranch inp) ∈ (handleRepo inp).ops))
    ∧ (wantsUpdate inp.userKey = true →
      GitOp.fetchAll ∈ (handleRepo inp).ops
      ∧ (inp.env.fetchAllOk = true →
          (checkoutBranch inp.env (effectiveBranch inp)).ok = true →
          GitOp.pullFFOnly ∈ (handleRepo inp).ops
          ∧ (inp.env.pullFFOk = false →
              (handleRepo inp).aborted = true ∧ (handleRepo inp).writes = [])
          ∧ (inp.env.pullFFOk = true →
              ((handleRepo inp).writes.map (·.branch)).head? =
                some (effectiveBranch inp)
              ∧ ((handleRepo inp).writes.map (·.lastAccess)).head? =
                some (some inp.tNow)))) := by
  have hbne : (statusOf inp).behind ≠ some 0 := by
    rw [hb]
    intro hcon
    injection hcon with hcon
    omega
  constructor
  · intro hupd
    rw [handleRepo_present_eq inp hd,
      presentDecide_default _ _ _ _ _ hbne hkey hupd, presentFinish_ops]
    refine ⟨?_, ?_, ?_⟩
    · intro hmem
      rcases List.mem_append.mp hmem with h | h
      · rcases List.mem_append.mp h with h1 | h1
        · exact (curOps_no_sync _ _).1 h1
        · exact (status_ops_no_sync _ _ _).1 h1
      · exact (checkoutBranch_no_sync _ _).1 h
    · intro hmem
      rcases List.mem_append.mp hmem with h | h
      · rcases List.mem_append.mp h with h1 | h1
        · exact (curOps_no_sync _ _).2 h1
        · exact (status_ops_no_sync _ _ _).2 h1
      · exact (checkoutBranch_no_sync _ _).2 h
    · intro hok
      rcases checkoutBranch_mem inp.env (effectiveBranch inp) hok with h | h
      · exact Or.inl (List.mem_append.mpr (Or.inr h))
      · exact Or.inr (List.mem_append.mpr (Or.inr h))
  · intro hupd
    rw [handleRepo_present_eq inp hd,
      presentDecide_update _ _ _ _ _ hbne hkey hupd]
    constructor
    · rw [presentFinish_ops]
      exact List.mem_append.mpr (Or.inr (pullRepo_fetches _ _))
    · intro hf hc
      have hp := pullRepo_pull inp.env (effectiveBranch inp) hf hc
      refine ⟨?_, ?_, ?_⟩
      · rw [presentFinish_ops]
        exact List.mem_append.mpr (Or.inr hp.1)
      · intro hff
        exact presentFinish_not_ok inp _ (by rw [hp.2, hff])
      · intro hff
        have hh := presentFinish_writes_head inp
          { ops := (curOpsOf inp.branchOverride inp.meta ++
              (describeRepoStatus inp.env (effectiveBranch inp) inp.meta).2) ++
              (pullRepo inp.env (effectiveBranch inp)).ops
            statusBranch := effectiveBranch inp, status := statusOf inp
            ok := (pullRepo inp.env (effectiveBranch inp)).ok }
          (by rw [hp.2, hff])
        constructor
        · rw [List.head?_map, hh]
          simp [finishMeta]
        · rw [List.head?_map, hh]
          simp [finishMeta]

/-- A reuse run identical to `inpReuse` but requesting the update action
with Tab. -/
def inpReuseUpdate : HandleInput :=
  { inpReuse with userKey := "\t" }

/-- Witness for C4 on the three-commits-behind scenario: the default key
checks out with no pull; the Tab key fetches and fast-forward pulls, and
the first record then written carries the branch and the fresh
`lastAccess`. -/
theorem C4_witness :
    (GitOp.pullFFOnly ∉ (handleRepo inpReuse).ops
      ∧ GitOp.fetchAll ∉ (handleRepo inpReuse).ops
      ∧ (GitOp.checkout (effectiveBranch inpReuse) ∈ (handleRepo inpReuse).ops
          ∨ GitOp.checkoutTrack (effectiveBranch inpReuse) ∈
              (handleRepo inpReuse).ops))
    ∧ (GitOp.fetchAll ∈ (handleRepo inpReuseUpdate).ops
      ∧ GitOp.pullFFOnly ∈ (handleRepo inpReuseUpdate).ops
      ∧ ((handleRepo inpReuseUpdate).writes.map (·.branch)).head? =
          some (effectiveBranch inpReuseUpdate)
      ∧ ((handleRepo inpReuseUpdate).writes.map (·.lastAccess)).head? =
          some (some inpReuseUpdate.tNow)) := by
  have h1 := (C4_behind_prompt_two_actions inpReuse 3 rfl (by decide)
    (by decide) (by decide)).1 (by decide)
  have h2 := (C4_behind_prompt_two_actions inpReuseUpdate 3 rfl (by decide)
    (by decide) (by decide)).2 (by decide)
  have h3 := h2.2 rfl (by decide)
  exact ⟨⟨h1.1, h1.2.1, h1.2.2 (by decide)⟩,
    ⟨h2.1, h3.1, (h3.2.2 rfl).1, (h3.2.2 rfl).2⟩⟩

theorem describeRepoStatus_degraded (env : GitEnv) (b : String)
    (m : Option RepoMeta)
    (hfail : env.fetchBranchOk b = false
      ∨ (env.fetchBranchOk b = true ∧ env.remoteRefExists b = false)) :
    (describeRepoStatus env b m).1.behind = none
    ∧ (StatusSegment.failedFetch ∈ (describeRepoStatus env b m).1.display
       ∨ StatusSegment.failedRemoteRef ∈ (describeRepoStatus env b m).1.display) := by
  rcases hfail with h | ⟨h1, h2⟩
  · simp only [describeRepoStatus]
    rw [if_neg (by rw [h]; exact Bool.false_ne_true)]
    exact ⟨rfl, Or.inl (by simp)⟩
  · simp only [describeRepoStatus]
    rw [if_pos h1, if_neg (by rw [h2]; exact Bool.false_ne_true)]
    exact ⟨rfl, Or.inr (by simp)⟩

/-- An offline reuse run where the user answers the prompt with Tab
(explicit update request). -/
def inpOfflineUpdate : HandleInput :=
  { inpReuse with env := envOffline, userKey := "\t" }

/-- Counterexample to C1 as stated: with the remote unreachable the
status check does degrade (`behind = none`, a fetch-failure warning is
surfaced), but the run still prompts, and on the Tab answer it attempts
`git fetch origin` — a synchronization attempt — whose failure aborts the
whole invocation before any checkout or metadata write. -/
theorem C1_counterexample :
    (statusOf inpOfflineUpdate).behind = none
    ∧ StatusSegment.failedFetch ∈ (statusOf inpOfflineUpdate).display
    ∧ GitOp.fetchAll ∈ (handleRepo inpOfflineUpdate).ops
    ∧ (handleRepo inpOfflineUpdate).aborted = true
    ∧ (handleRepo inpOfflineUpdate).writes = []
    ∧ GitOp.checkout "main" ∉ (handleRepo inpOfflineUpdate).ops := by
  decide

/-- C1 (amended): when the remote fetch fails or the remote tracking ref
is missing during the status check, the status check itself does not
abort: the state degrades to `behind = none` with a warning surfaced.
The user is still prompted exactly as in the behind case; under the
default answer (and a successful checkout and launch) the last-known
local branch is checked out, no fetch-and-pull is performed, and the
invocation completes.  (Per the counterexample, the update answer still
attempts a fetch-and-pull in this state, aborting when the remote is
unreachable.) -/
theorem C1_degraded_default_checkout (inp : HandleInput)
    (hd : inp.dirExists = true)
    (hfail : inp.env.fetchBranchOk (effectiveBranch inp) = false
      ∨ (inp.env.fetchBranchOk (effectiveBranch inp) = true
         ∧ inp.env.remoteRefExists (effectiveBranch inp) = false))
    (hupd : wantsUpdate inp.userKey = false) (hkey : inp.userKey ≠ "\x03")
    (hlocal : inp.env.localRefExists (effectiveBranch inp) = true)
    (hco : inp.env.checkoutOk (effectiveBranch inp) = true)
    (hlaunch : inp.launchOk = true) :
    (statusOf inp).behind = none
    ∧ (StatusSegment.failedFetch ∈ (statusOf inp).display
       ∨ StatusSegment.failedRemoteRef ∈ (statusOf inp).display)
    ∧ GitOp.checkout (effectiveBranch inp) ∈ (handleRepo inp).ops
    ∧ GitOp.pullFFOnly ∉ (handleRepo inp).ops
    ∧ GitOp.fetchAll ∉ (handleRepo inp).ops
    ∧ (handleRepo inp).aborted = false := by
  have hdeg := describeRepoStatus_degraded inp.env (effectiveBranch inp)
    inp.meta hfail
  have hbne : (statusOf inp).behind ≠ some 0 := by
    rw [statusOf, hdeg.1]
    exact fun hcon => Option.noConfusion hcon
  have hcb : checkoutBranch inp.env (effectiveBranch inp) =
      { ops := [.showRefLocal (effectiveBranch inp),
                .checkout (effectiveBranch inp)]
        ok := inp.env.checkoutOk (effectiveBranch inp) } := by
    rw [checkoutBranch, if_pos hlocal]
  refine ⟨hdeg.1, hdeg.2, ?_, ?_, ?_, ?_⟩
  · rw [handleRepo_present_eq inp hd,
      presentDecide_default _ _ _ _ _ hbne hkey hupd, presentFinish_ops]
    refine List.mem_append.mpr (Or.inr ?_)
    rw [hcb]
    simp
  · rw [handleRepo_present_eq inp hd,
      presentDecide_default _ _ _ _ _ hbne hkey hupd, presentFinish_ops]
    intro hmem
    rcases List.mem_append.mp hmem with h | h
    · rcases List.mem_append.mp h with h1 | h1
      · exact (curOps_no_sync _ _).1 h1
      · exact (status_ops_no_sync _ _ _).1 h1
    · exact (checkoutBranch_no_sync _ _).1 h
  · rw [handleRepo_present_eq inp hd,
      presentDecide_default _ _ _ _ _ hbne hkey hupd, presentFinish_ops]
    intro hmem
    rcases List.mem_append.mp hmem with h | h
    · rcases List.mem_append.mp h with h1 | h1
      · exact (curOps_no_sync _ _).2 h1
      · exact (status_ops_no_sync _ _ _).2 h1
    · exact (checkoutBranch_no_sync _ _).2 h
  · rw [handleRepo_present_eq inp hd,
      presentDecide_default _ _ _ _ _ hbne hkey hupd]
    exact presentFinish_aborted_false inp _ (by rw [hcb, hco]) hlaunch

/-- An offline reuse run where the user accepts the default action. -/
def inpOfflineDefault : HandleInput :=
  { inpReuse with env := envOffline, userKey := "\r" }

/-- Witness for the amended C1: the concrete offline run with the
default answer degrades to `behind = none`, surfaces the warning, checks
out the remembered branch, performs no fetch-and-pull, and completes. -/
theorem C1_witness :
    (statusOf inpOfflineDefault).behind = none
    ∧ (StatusSegment.failedFetch ∈ (statusOf inpOfflineDefault).display
       ∨ StatusSegment.failedRemoteRef ∈ (statusOf inpOfflineDefault).display)
    ∧ GitOp.checkout (effectiveBranch inpOfflineDefault) ∈
        (handleRepo inpOfflineDefault).ops
    ∧ GitOp.pullFFOnly ∉ (handleRepo inpOfflineDefault).ops
    ∧ GitOp.fetchAll ∉ (handleRepo inpOfflineDefault).ops
    ∧ (handleRepo inpOfflineDefault).aborted = false :=
  C1_degraded_default_checkout inpOfflineDefault rfl (Or.inl rfl) (by decide)
    (by decide) rfl rfl rfl

/-! ## Claims about reference parsing (C3, C6) -/

theorem githubAt_cons_ne (c : Char) (l : List Char) (hc : c ≠ 'g') :
    githubAt (c :: l) = none := by
  have h1 : ("github.com:".toList.isPrefixOf (c :: l)) = false := by
    rw [Bool.eq_false_iff]
    intro h
    rw [List.isPrefixOf_iff_prefix] at h
    have : 'g' = c ∧ "ithub.com:".toList <+: l := List.cons_prefix_cons.mp h
    exact hc this.1.symm
  have h2 : ("github.com/".toList.isPrefixOf (c :: l)) = false := by
    rw [Bool.eq_false_iff]
    intro h
    rw [List.isPrefixOf_iff_prefix] at h
    have : 'g' = c ∧ "ithub.com/".toList <+: l := List.cons_prefix_cons.mp h
    exact hc this.1.symm
  rw [githubAt, if_neg (by rw [h1]; exact Bool.false_ne_true),
    if_neg (by rw [h2]; exact Bool.false_ne_true)]

theorem scanUrl_cons_none (c : Char) (l : List Char)
    (h : githubAt (c :: l) = none) : scanUrl (c :: l) = scanUrl l := by
  rw [scanUrl.eq_def]
  simp only [h]

theorem scanUrl_cons_found (c : Char) (l s o r : List Char)
    (hg : githubAt (c :: l) = some s) (hf : findOwner [] s = some (o, r)) :
    scanUrl (c :: l) = some (o, group2 r) := by
  rw [scanUrl.eq_def]
  simp only [hg, hf]

theorem ghColon_mismatch (rest : List Char) :
    ("github.com:".toList.isPrefixOf ("github.com/".toList ++ rest)) = false := by
  rw [Bool.eq_false_iff]
  intro h
  rw [List.isPrefixOf_iff_prefix, List.prefix_iff_eq_take,
    List.take_left' (by decide)] at h
  exact absurd h (by decide)

theorem githubAt_append (rest : List Char) :
    githubAt ("github.com/".toList ++ rest) = some rest := by
  have h2 : ("github.com/".toList.isPrefixOf ("github.com/".toList ++ rest))
      = true := by
    rw [List.isPrefixOf_iff_prefix]
    exact List.prefix_append _ _
  rw [githubAt,
    if_neg (by rw [ghColon_mismatch]; exact Bool.false_ne_true),
    if_pos h2, List.drop_left' (by decide)]

theorem scanUrl_https (tail : List Char) :
    scanUrl ("https://".toList ++ tail) = scanUrl tail := by
  show scanUrl ('h' :: 't' :: 't' :: 'p' :: 's' :: ':' :: '/' :: '/' :: tail)
    = scanUrl tail
  rw [scanUrl_cons_none _ _ (githubAt_cons_ne _ _ (by decide)),
    scanUrl_cons_none _ _ (githubAt_cons_ne _ _ (by decide)),
    scanUrl_cons_none _ _ (githubAt_cons_ne _ _ (by decide)),
    scanUrl_cons_none _ _ (githubAt_cons_ne _ _ (by decide)),
    scanUrl_cons_none _ _ (githubAt_cons_ne _ _ (by decide)),
    scanUrl_cons_none _ _ (githubAt_cons_ne _ _ (by decide)),
    scanUrl_cons_none _ _ (githubAt_cons_ne _ _ (by decide)),
    scanUrl_cons_none _ _ (githubAt_cons_ne _ _ (by decide))]

theorem scanUrl_github_found (rest o r : List Char)
    (hf : findOwner [] rest = some (o, r)) :
    scanUrl ("github.com/".toList ++ rest) = some (o, group2 r) :=
  scanUrl_cons_found 'g' ("ithub.com/".toList ++ rest) rest o r
    (githubAt_append rest) hf

theorem findOwner_no_slash (b : List Char) (hb : group2Viable b = true) :
    ∀ (o acc : List Char),
      (∀ c ∈ o, c ≠ '/' ∧ isLineTerminator c = false) → (acc ≠ [] ∨ o ≠ []) →
      findOwner acc (o ++ '/' :: b) = some (acc.reverse ++ o, b) := by
  intro o
  induction o with
  | nil =>
    intro acc _ hne
    have hacc : acc ≠ [] := by
      rcases hne with h | h
      · exact h
      · exact absurd rfl h
    simp [findOwner, hacc, hb]
  | cons c cs ih =>
    intro acc ho _
    have hc : c ≠ '/' := (ho c (by simp)).1
    have ht : isLineTerminator c = false := (ho c (by simp)).2
    rw [List.cons_append]
    simp only [findOwner, if_neg hc, ht, Bool.false_eq_true, if_false]
    rw [ih (c :: acc) (fun x hx => ho x (by simp [hx])) (Or.inl (by simp))]
    simp

theorem group2_no_git (r : List Char)
    (hng : ¬ ".git".toList.isSuffixOf r = true) : group2 r = r := by
  rw [group2, if_neg (fun h => hng h.2)]

theorem stripGit_no_git (r : List Char)
    (hng : ¬ ".git".toList.isSuffixOf r = true) : stripGit r = r := by
  rw [stripGit, if_neg hng]

theorem group2_append_git (r : List Char) (hr : r ≠ []) :
    group2 (r ++ ".git".toList) = r := by
  have hlen : (".git".toList).length = 4 := by decide
  rw [group2, if_pos]
  · rw [List.length_append, hlen,
      show r.length + 4 - 4 = r.length from by omega]
    exact List.take_left r _
  · constructor
    · rw [List.length_append, hlen]
      have : 0 < r.length := List.length_pos.mpr hr
      omega
    · rw [List.isSuffixOf_iff_suffix]
      exact List.suffix_append _ _

theorem toList_append (s t : String) : (s ++ t).toList = s.toList ++ t.toList :=
  String.data_append s t

theorem group2Viable_of (r : List Char) (h1 : r ≠ [])
    (h2 : ∀ x ∈ r, isLineTerminator x = false) : group2Viable r = true := by
  simp only [group2Viable, Bool.and_eq_true, decide_eq_true_eq,
    Bool.not_eq_true']
  refine ⟨h1, ?_⟩
  rw [List.any_eq_false]
  intro x hx
  rw [h2 x hx]
  exact Bool.false_ne_true

theorem isUrlL_https (tail : List Char) :
    isUrlL ("https://".toList ++ tail) = true := by
  have hB : ("https://".toList.isPrefixOf ("https://".toList ++ tail)) = true := by
    rw [List.isPrefixOf_iff_prefix]
    exact List.prefix_append _ _
  rw [isUrlL, hB]
  simp

/-- Counterexample to C3 as stated: extraction is not stable under a
trailing slash — `https://github.com/foo/bar/` yields the repo name
`"bar/"`, the trailing slash included, while the same URL without the
slash yields `"bar"`. -/
theorem C3_counterexample :
    (parseRepoSlug "https://github.com/foo/bar").map (fun x => (x.owner, x.repo))
        = some ("foo", "bar")
    ∧ (parseRepoSlug "https://github.com/foo/bar/").map (fun x => (x.owner, x.repo))
        = some ("foo", "bar/")
    ∧ (parseRepoSlug "https://github.com/foo/bar/").map (fun x => (x.owner, x.repo))
        ≠ (parseRepoSlug "https://github.com/foo/bar").map (fun x => (x.owner, x.repo)) := by
  decide

/-- C3 (amended): for hosting-platform URLs
`https://github.com/{owner}/{repo}` without a trailing slash — owner
nonempty, containing neither `/` nor a line terminator; repo nonempty,
free of line terminators (the regex `.` cannot match them) and not
already ending in `.git` — extraction of `{owner, repo}` is
case-preserving and stable under the optional `.git` suffix.  (Per the
counterexample, it is not stable under a trailing slash, which survives
in the repo name.) -/
theorem C3_git_suffix_stable (o r : String)
    (ho1 : o.toList ≠ [])
    (ho2 : ∀ c ∈ o.toList, c ≠ '/' ∧ isLineTerminator c = false)
    (hr1 : r.toList ≠ [])
    (hrt : r.toList.any isLineTerminator = false)
    (hr2 : ¬ ".git".toList.isSuffixOf r.toList = true) :
    (parseRepoSlug ("https://github.com/" ++ o ++ "/" ++ r)).map
        (fun x => (x.owner, x.repo)) = some (o, r)
    ∧ (parseRepoSlug ("https://github.com/" ++ o ++ "/" ++ r ++ ".git")).map
        (fun x => (x.owner, x.repo)) = some (o, r) := by
  constructor
  · have hA : ("https://github.com/" ++ o ++ "/" ++ r).toList
        = "https://".toList ++
          ("github.com/".toList ++ (o.toList ++ '/' :: r.toList)) := by
      show (("https://github.com/".toList ++ o.toList) ++ "/".toList) ++ r.toList
        = "https://".toList ++
          ("github.com/".toList ++ (o.toList ++ '/' :: r.toList))
      simp only [List.append_assoc]
      rfl
    have hrt' : ∀ x ∈ r.toList, isLineTerminator x = false := by
      intro x hx
      rcases h : isLineTerminator x with _ | _
      · rfl
      · exact absurd (List.any_eq_true.mpr ⟨x, hx, h⟩)
          (by rw [hrt]; exact Bool.false_ne_true)
    have hv : group2Viable r.toList = true := group2Viable_of _ hr1 hrt'
    have hfind : findOwner [] (o.toList ++ '/' :: r.toList)
        = some (o.toList, r.toList) := by
      have := findOwner_no_slash r.toList hv o.toList [] ho2 (Or.inr ho1)
      simpa using this
    simp only [parseRepoSlug]
    rw [hA, if_pos (isUrlL_https _), scanUrl_https,
      scanUrl_github_found _ _ _ hfind, group2_no_git _ hr2]
    simp [show stripGit r.data = r.data from stripGit_no_git r.toList hr2]
  · have hA : ("https://github.com/" ++ o ++ "/" ++ r ++ ".git").toList
        = "https://".toList ++
          ("github.com/".toList ++
            (o.toList ++ '/' :: (r.toList ++ ".git".toList))) := by
      show ((("https://github.com/".toList ++ o.toList) ++ "/".toList) ++
          r.toList) ++ ".git".toList
        = "https://".toList ++
          ("github.com/".toList ++
            (o.toList ++ '/' :: (r.toList ++ ".git".toList)))
      simp only [List.append_assoc]
      rfl
    have hne : r.toList ++ ".git".toList ≠ [] := by
      intro h
      exact hr1 (List.append_eq_nil.mp h).1
    have hrt' : ∀ x ∈ r.toList, isLineTerminator x = false := by
      intro x hx
      rcases h : isLineTerminator x with _ | _
      · rfl
      · exact absurd (List.any_eq_true.mpr ⟨x, hx, h⟩)
          (by rw [hrt]; exact Bool.false_ne_true)
    have hv : group2Viable (r.toList ++ ".git".toList) = true := by
      apply group2Viable_of _ hne
      intro x hx
      rcases List.mem_append.mp hx with h | h
      · exact hrt' x h
      · simp only [show ".git".toList = ['.', 'g', 'i', 't'] from rfl,
          List.mem_cons, List.not_mem_nil, or_false] at h
        rcases h with rfl | rfl | rfl | rfl <;> rfl
    have hfind : findOwner [] (o.toList ++ '/' :: (r.toList ++ ".git".toList))
        = some (o.toList, r.toList ++ ".git".toList) := by
      have := findOwner_no_slash (r.toList ++ ".git".toList) hv o.toList []
        ho2 (Or.inr ho1)
      simpa using this
    simp only [parseRepoSlug]
    rw [hA, if_pos (isUrlL_https _), scanUrl_https,
      scanUrl_github_found _ _ _ hfind, group2_append_git _ hr1]
    simp [show stripGit r.data = r.data from stripGit_no_git r.toList hr2]

/-- Witness for the amended C3 at `owner = "foo"`, `repo = "bar"`. -/
theorem C3_witness :
    (parseRepoSlug ("https://github.com/" ++ "foo" ++ "/" ++ "bar")).map
        (fun x => (x.owner, x.repo)) = some ("foo", "bar")
    ∧ (parseRepoSlug ("https://github.com/" ++ "foo" ++ "/" ++ "bar" ++ ".git")).map
        (fun x => (x.owner, x.repo)) = some ("foo", "bar") :=
  C3_git_suffix_stable "foo" "bar" (by decide) (by decide) (by decide)
    (by decide) (by decide)

theorem takeWhile_slash (b : List Char) :
    ∀ a : List Char, (∀ c ∈ a, c ≠ '/') →
      (a ++ '/' :: b).takeWhile (fun c => c ≠ '/') = a := by
  intro a
  induction a with
  | nil => simp
  | cons c cs ih =>
    intro ha
    have hc : c ≠ '/' := ha c (by simp)
    rw [List.cons_append, List.takeWhile_cons, if_pos (by simp [hc]),
      ih (fun x hx => ha x (by simp [hx]))]

theorem dropWhile_slash (b : List Char) :
    ∀ a : List Char, (∀ c ∈ a, c ≠ '/') →
      (a ++ '/' :: b).dropWhile (fun c => c ≠ '/') = '/' :: b := by
  intro a
  induction a with
  | nil => simp
  | cons c cs ih =>
    intro ha
    have hc : c ≠ '/' := ha c (by simp)
    rw [List.cons_append, List.dropWhile_cons, if_pos (by simp [hc]),
      ih (fun x hx => ha x (by simp [hx]))]

theorem slugParse_split (a b : List Char)
    (ha1 : a ≠ []) (hb1 : b ≠ [])
    (ha2 : ∀ c ∈ a, c ≠ '/') (hb2 : ¬ b.contains '/' = true)
    (haw : noWs a = true) (hbw : noWs b = true) :
    slugParse (a ++ '/' :: b) = some (a, b) := by
  rw [slugParse.eq_def, dropWhile_slash b a ha2, takeWhile_slash b a ha2]
  exact if_pos ⟨ha1, hb1, hb2, haw, hbw⟩

/-- The resolver environment of an empty cache: no local repositories, no
history, a search that returns nothing, a chooser that is never
reached. -/
def resEnvEmpty : ResolveEnv :=
  { localRepos := [], historyNames := [], ghResults := []
    fzfPick := fun _ => none }

/-- Counterexample to C6 as stated: `"git@a/b"` contains exactly one `/`
and no whitespace, yet — because the `git@` prefix routes it into the URL
regex, which requires `github.com` and fails — the resolver falls through
to the search path and invokes the `gh` subprocess. -/
theorem C6_counterexample :
    ("git@a/b".toList.filter (fun c => c = '/')).length = 1
    ∧ "git@a/b".toList.all (fun c => ¬ jsWhitespace c = true) = true
    ∧ (resolveRepo resEnvEmpty "git@a/b").calls ≠ [] := by
  decide

/-- C6 (amended): every input of the exact `owner/repo` shape — one `/`
splitting two nonempty slash-free segments, no character of the regex
class `\s` — that does not begin with a URL prefix (`http://`,
`https://`, `git@`) is parsed directly into `{owner, repo, url}` with no
subprocess call, whatever the cache, history, and search environment. -/
theorem C6_slug_no_subprocess (env : ResolveEnv) (input : String)
    (a b : List Char)
    (hurl : isUrlL input.toList = false)
    (hsplit : input.toList = a ++ '/' :: b)
    (ha1 : a ≠ []) (hb1 : b ≠ [])
    (ha2 : ∀ c ∈ a, c ≠ '/') (hb2 : ¬ b.contains '/' = true)
    (hws : ∀ c ∈ input.toList, jsWhitespace c = false) :
    resolveRepo env input =
      { result := .ok ⟨⟨a⟩, ⟨b⟩, "https://github.com/" ++ input⟩
        calls := [] } := by
  have haw : noWs a = true := by
    rw [noWs, List.all_eq_true]
    intro c hc
    simp only [decide_eq_true_eq]
    rw [hws c (by rw [hsplit]; exact List.mem_append_left _ hc)]
    exact Bool.false_ne_true
  have hbw : noWs b = true := by
    rw [noWs, List.all_eq_true]
    intro c hc
    simp only [decide_eq_true_eq]
    rw [hws c (by
      rw [hsplit]
      exact List.mem_append_right _ (by simp [hc]))]
    exact Bool.false_ne_true
  have hparse : parseRepoSlug input =
      some ⟨⟨a⟩, ⟨b⟩, "https://github.com/" ++ input⟩ := by
    rw [parseRepoSlug.eq_def,
      if_neg (by rw [hurl]; exact Bool.false_ne_true), hsplit,
      slugParse_split a b ha1 hb1 ha2 hb2 haw hbw]
  rw [resolveRepo.eq_def, hparse]

/-- Witness for the amended C6: `"octocat/Hello-World"` resolves directly
with an empty call trace even in the empty environment. -/
theorem C6_witness :
    resolveRepo resEnvEmpty "octocat/Hello-World" =
      { result := .ok ⟨⟨"octocat".toList⟩, ⟨"Hello-World".toList⟩,
          "https://github.com/" ++ "octocat/Hello-World"⟩
        calls := [] } :=
  C6_slug_no_subprocess resEnvEmpty "octocat/Hello-World"
    "octocat".toList "Hello-World".toList (by decide) (by decide) (by decide)
    (by decide) (by decide) (by decide) (by decide)

end Spoon
